import Mathlib

/-!
Shallow embedding of the InfluxDB metrics line-protocol encoder
(`src/sinks/influxdb_metrics.rs`) and proofs about it.

Modelling conventions:
* `f64` is modelled by `F`: either the invalid value NaN or a finite value,
  modelled as a rational number (`±∞` is not modelled; nothing here produces
  or consumes it).  `f64::to_string` is modelled by the exact shortest decimal
  expansion of the rational, which agrees with Rust's shortest-round-trip
  formatting on every value whose shortest form is its exact expansion (in
  particular on all integral and short decimal values appearing below).
* `u32` is modelled by `Nat` (the encoder only formats these values and uses
  them as repetition counts; no arithmetic that could overflow is performed).
* `HashMap<String, _>` is modelled by the list of key/value bindings (`SMap`),
  a later binding overriding an earlier one of the same key; collecting into a
  `BTreeMap` is modelled by dropping overridden bindings and sorting by key.
* Rust panics (a failed `unwrap`, an out-of-range index) inside
  `encode_distribution` are modelled by `none`.
* the wall-clock read performed for a missing timestamp is modelled by an
  explicit `now` argument.
* `Vec::sort_by` is modelled by an insertion sort using the same comparator;
  for a comparator that is a total preorder this produces the same stable
  ascending order as Rust's stable sort.
-/

namespace InfluxMetrics

/-- Model of `f64`: NaN or a finite value modelled as a rational. -/
inductive F where
  | nan : F
  | fin (q : ℚ) : F
deriving DecidableEq

/-- Model of `f64::partial_cmp`: `None` whenever either side is NaN, otherwise
the total order of the finite values. -/
def F.pcmp : F → F → Option Ordering
  | .fin a, .fin b => some (if a < b then .lt else if a = b then .eq else .gt)
  | _, _ => none

/-- The comparator used at the `sort_by` call site of `encode_distribution`:
an incomparable pair is treated as equal (`unwrap_or(Ordering::Equal)`). -/
def F.cmpEq (a b : F) : Ordering := (a.pcmp b).getD .eq

/-- Model of `f64` addition (NaN absorbs). -/
def F.add : F → F → F
  | .fin a, .fin b => .fin (a + b)
  | _, _ => .nan

/-- Model of `f64` division as used by `encode_distribution` (the divisor
there is a sample count `≥ 2`; division by zero is mapped to NaN). -/
def F.div : F → F → F
  | .fin a, .fin b => if b = 0 then .nan else .fin (a / b)
  | _, _ => .nan

/-- Replace every occurrence of the character `c` by the character list `r`;
this is `str::replace` for a single-character pattern. -/
def replChar (c : Char) (r : List Char) : List Char → List Char
  | [] => []
  | x :: xs => (if x = c then r else [x]) ++ replChar c r xs

/-- Model of `encode_key`: replace, in this order, backslash, comma, space and
equals sign by their backslash-escaped forms. -/
def encode_key (key : String) : String :=
  String.mk (replChar '=' ['\\', '=']
    (replChar ' ' ['\\', ' ']
      (replChar ',' ['\\', ',']
        (replChar '\\' ['\\', '\\'] key.toList))))

/-- The escaping applied inside a string-typed field value: backslash first,
then double quote. -/
def escapeFieldString (s : String) : String :=
  String.mk (replChar '"' ['\\', '"'] (replChar '\\' ['\\', '\\'] s.toList))

/-- Number of decimal digits after the point in the exact decimal expansion of
`q` (0 if the expansion does not terminate within the fuel; the fuel is ample
for every 64-bit float). -/
def decExpAux : Nat → ℚ → Nat
  | 0, _ => 0
  | fuel + 1, q => if q.den = 1 then 0 else decExpAux fuel (q * 10) + 1

/-- Exact decimal expansion of a nonnegative rational, without trailing
zeros and without a decimal point when the value is integral. -/
def fmtNonnegRat (q : ℚ) : String :=
  let k := decExpAux 1200 q
  let s := toString (q * 10 ^ k).num.toNat
  if k = 0 then s
  else
    let ds := s.toList
    let ds := if ds.length < k + 1 then List.replicate (k + 1 - ds.length) '0' ++ ds else ds
    String.mk (ds.take (ds.length - k)) ++ "." ++ String.mk (ds.drop (ds.length - k))

/-- Model of `f64::to_string` on finite values (see the module comment). -/
def fmtRat (q : ℚ) : String :=
  if q < 0 then "-" ++ fmtNonnegRat (-q) else fmtNonnegRat q

/-- Model of `f64::to_string`. -/
def fmtF : F → String
  | .nan => "NaN"
  | .fin q => fmtRat q

/-- The `Field` enum of the sink: a typed scalar destined for output. -/
inductive Field where
  | String (s : String) : Field
  | Float (f : F) : Field
  | UnsignedInt (u : Nat) : Field
deriving DecidableEq

/-- Model of `HashMap<String, α>`: the bindings in insertion order, a later
binding of a key overriding an earlier one. -/
abbrev SMap (α : Type) := List (String × α)

/-- Model of `HashMap::insert` (overwrites any existing binding of the key). -/
def hmInsert {α : Type} (m : SMap α) (k : String) (v : α) : SMap α :=
  (m.filter fun p => p.1 != k) ++ [(k, v)]

/-- Model of a `HashMap` lookup: the last binding of the key, if any. -/
def hmGet {α : Type} (m : SMap α) (k : String) : Option α :=
  (m.reverse.find? fun p => p.1 == k).map Prod.snd

/-- Drop every binding that a later binding of the same key overrides.  The
result binds each key at most once, like the `HashMap` it models. -/
def dedupLast {α : Type} : SMap α → SMap α
  | [] => []
  | p :: ps => if ps.any fun q => q.1 == p.1 then dedupLast ps else p :: dedupLast ps

/-- Byte/codepoint lexicographic strict order on strings (the `Ord` instance
of Rust's `String`; on valid UTF-8, byte order and codepoint order agree). -/
def strLtB : List Char → List Char → Bool
  | [], [] => false
  | [], _ :: _ => true
  | _ :: _, [] => false
  | a :: as, b :: bs => Nat.blt a.toNat b.toNat || (a == b && strLtB as bs)

/-- Sort the bindings by key in byte-lexicographic order. -/
def sortByKey {α : Type} (m : SMap α) : SMap α :=
  List.insertionSort (fun p q => strLtB q.1.toList p.1.toList = false) m

/-- Model of `hash_map.iter().collect::<BTreeMap<_, _>>()`: one binding per
key (the overriding one), sorted by key. -/
def toSortedMap {α : Type} (m : SMap α) : SMap α := sortByKey (dedupLast m)

/-- Model of `Vec::join(",")`. -/
def joinComma : List String → String
  | [] => ""
  | [s] => s
  | s :: ss => s ++ "," ++ joinComma ss

/-- The `key=value` rendering of one pair, or the empty string when either
escaped side is empty (the shared `if` of `encode_tags` and
`encode_fields`). -/
def renderPair (key value : String) : String :=
  if key ≠ "" ∧ value ≠ "" then key ++ "=" ++ value else ""

/-- Model of `encode_tags`. -/
def encode_tags (tags : SMap String) : String :=
  let ordered := ((toSortedMap tags).map fun pair =>
      renderPair (encode_key pair.1) (encode_key pair.2)).filter
    fun tag_value => tag_value != ""
  joinComma ordered

/-- The per-kind value rendering of `encode_fields` (the `match` on the
`Field`): strings are quoted and escaped, floats use the default float
formatting, unsigned integers get the `i` suffix. -/
def fieldValue : Field → String
  | .String s => "\"" ++ escapeFieldString s ++ "\""
  | .Float f => fmtF f
  | .UnsignedInt i => toString i ++ "i"

/-- Model of `encode_fields`. -/
def encode_fields (fields : SMap Field) : String :=
  let encoded := ((toSortedMap fields).map fun pair =>
      renderPair (encode_key pair.1) (fieldValue pair.2)).filter
    fun field_value => field_value != ""
  joinComma encoded

/-- Model of `encode_namespace`. -/
def encode_namespace (ns name : String) : String :=
  if ns ≠ "" then ns ++ "." ++ name else name

/-- Model of `encode_timestamp`; the wall-clock instant substituted for a
missing timestamp is the explicit `now` argument. -/
def encode_timestamp (now : Int) : Option Int → Int
  | some ts => ts
  | none => now

/-- Model of `to_fields`. -/
def to_fields (value : F) : SMap Field := [("value", Field.Float value)]

/-- Round half away from zero (`f64::round`). -/
def roundAZ (q : ℚ) : Int :=
  if q < 0 then -(Rat.floor (-q + 1/2)) else Rat.floor (q + 1/2)

/-- The order-statistic index `(q * n − 1.0).round() as usize` computed by
`encode_distribution` (the `as usize` cast saturates at 0 from below). -/
def sampleIdx (q : ℚ) (n : Nat) : Nat := (roundAZ (q * n - 1)).toNat

/-- The expansion loop of `encode_distribution`: each value repeated per its
count, pairing by index (`zip` stops at the shorter sequence). -/
def expandSamples {α : Type} (values : List α) (counts : List Nat) : List α :=
  (values.zip counts).flatMap fun vc => List.replicate vc.2 vc.1

/-- The sort performed by `encode_distribution`:
`samples.sort_by(|a, b| a.partial_cmp(b).unwrap_or(Ordering::Equal))`. -/
def sortSamples (samples : List F) : List F :=
  List.insertionSort (fun a b => a.cmpEq b ≠ Ordering.gt) samples

/-- Model of `encode_distribution`.  Rust panics (a failed `unwrap`, an
out-of-range index) are modelled by `none`. -/
def encode_distribution (values : List F) (counts : List Nat) : Option (SMap Field) :=
  if values.length ≠ counts.length then none
  else
    match expandSamples values counts with
    | [] => none
    | [val] =>
      some [("min", .Float val), ("max", .Float val), ("median", .Float val),
        ("avg", .Float val), ("sum", .Float val), ("count", .Float (.fin 1)),
        ("quantile_0.95", .Float val)]
    | s0 :: s1 :: srest =>
      let samples := s0 :: s1 :: srest
      let sorted := sortSamples samples
      let length : ℚ := samples.length
      do
        let mn ← sorted.head?
        let mx ← sorted.getLast?
        let p50 ← sorted[sampleIdx (1/2) samples.length]?
        let p95 ← sorted[sampleIdx (19/20) samples.length]?
        let sum := sorted.foldl F.add (F.fin 0)
        let avg := sum.div (F.fin length)
        some [("min", .Float mn), ("max", .Float mx), ("median", .Float p50),
          ("avg", .Float avg), ("sum", .Float sum), ("count", .Float (.fin length)),
          ("quantile_0.95", .Float p95)]

/-- The `MetricKind` of the event model (not consulted by the encoder). -/
inductive MetricKind where
  | Incremental : MetricKind
  | Absolute : MetricKind
deriving DecidableEq

/-- The `MetricValue` union.  The string set of the `Set` variant is modelled
by the list of its (distinct) elements. -/
inductive MetricValue where
  | Counter (value : F) : MetricValue
  | Gauge (value : F) : MetricValue
  | Set (values : List String) : MetricValue
  | AggregatedHistogram (buckets : List F) (counts : List Nat)
      (count : Nat) (sum : F) : MetricValue
  | AggregatedSummary (quantiles : List F) (values : List F)
      (count : Nat) (sum : F) : MetricValue
  | Distribution (values : List F) (sample_rates : List Nat) : MetricValue
deriving DecidableEq

/-- The metric sample consumed by the encoder. -/
structure Metric where
  name : String
  timestamp : Option Int
  tags : Option (SMap String)
  kind : MetricKind
  value : MetricValue
deriving DecidableEq

/-- Model of `influx_line_protocol`. -/
def influx_line_protocol (measurement : String) (metric_type : String)
    (tags : Option (SMap String)) (fields : Option (SMap Field))
    (timestamp : Int) : String :=
  let unwrapped_tags := hmInsert (tags.getD []) "metric_type" metric_type
  let encoded_fields := encode_fields (fields.getD [])
  if encoded_fields = "" then ""
  else
    encode_key measurement ++ ("," ++ encode_tags unwrapped_tags)
      ++ (" " ++ encoded_fields) ++ (" " ++ toString timestamp)

/-- The field map built in the `AggregatedHistogram` arm of `encode_events`:
the zipped `bucket_<b>` fields collected into the map, then `count` and `sum`
inserted. -/
def histogramFields (buckets : List F) (counts : List Nat) (count : Nat)
    (sum : F) : SMap Field :=
  hmInsert
    (hmInsert ((buckets.zip counts).map fun pair =>
        ("bucket_" ++ fmtF pair.1, Field.UnsignedInt pair.2))
      "count" (Field.UnsignedInt count))
    "sum" (Field.Float sum)

/-- The field map built in the `AggregatedSummary` arm of `encode_events`. -/
def summaryFields (quantiles : List F) (values : List F) (count : Nat)
    (sum : F) : SMap Field :=
  hmInsert
    (hmInsert ((quantiles.zip values).map fun pair =>
        ("quantile_" ++ fmtF pair.1, Field.Float pair.2))
      "count" (Field.UnsignedInt count))
    "sum" (Field.Float sum)

/-- The single line each arm of the `filter_map` closure of `encode_events`
pushes for one event (factored out of `encode_events` below; the `match` is
verbatim the per-variant dispatch of the source). -/
def event_line (ns : String) (now : Int) (event : Metric) : String :=
  let fullname := encode_namespace ns event.name
  let ts := encode_timestamp now event.timestamp
  let tags := event.tags
  match event.value with
  | .Counter value =>
    influx_line_protocol fullname "counter" tags (some (to_fields value)) ts
  | .Gauge value =>
    influx_line_protocol fullname "gauge" tags (some (to_fields value)) ts
  | .Set values =>
    influx_line_protocol fullname "set" tags
      (some (to_fields (.fin values.length))) ts
  | .AggregatedHistogram buckets counts count sum =>
    influx_line_protocol fullname "histogram" tags
      (some (histogramFields buckets counts count sum)) ts
  | .AggregatedSummary quantiles values count sum =>
    influx_line_protocol fullname "summary" tags
      (some (summaryFields quantiles values count sum)) ts
  | .Distribution values sample_rates =>
    influx_line_protocol fullname "distribution" tags
      (encode_distribution values sample_rates) ts

/-- Model of `encode_events`: every arm yields `Some(vec![line])`, the vectors
are flattened, and empty lines are dropped. -/
def encode_events (events : List Metric) (ns : String) (now : Int) : List String :=
  ((events.filterMap fun event => some [event_line ns now event]).flatten).filter
    fun lp => lp != ""

/-- Following the words of one claim about `encode_fields` (not the source):
like `encode_fields` but with the field keys sorted AFTER escaping.  It is
defined only to be compared against `encode_fields`, whose `BTreeMap` sorts
the raw keys before they are escaped. -/
def encode_fields_escapeSorted (fields : SMap Field) : String :=
  let rendered := (dedupLast fields).map fun pair =>
    (encode_key pair.1, fieldValue pair.2)
  let encoded := ((List.insertionSort
      (fun p q : String × String => strLtB q.1.toList p.1.toList = false)
      rendered).map fun pair => renderPair pair.1 pair.2).filter
    fun field_value => field_value != ""
  joinComma encoded

end InfluxMetrics


namespace InfluxMetrics

/-! ### Basic string facts -/

theorem str_ne_empty {s : String} (h : 0 < s.length) : s ≠ "" := by
  intro he
  subst he
  exact absurd h (by decide)

theorem str_pos_of_ne {s : String} (h : s ≠ "") : 0 < s.length := by
  obtain ⟨data⟩ := s
  cases data with
  | nil => exact absurd rfl h
  | cons c cs => simp [String.length]

theorem joinComma_ne_empty :
    ∀ (l : List String), l ≠ [] → (∀ x ∈ l, x ≠ "") → joinComma l ≠ ""
  | [], h, _ => absurd rfl h
  | [s], _, hx => by simpa [joinComma] using hx s (by simp)
  | s :: t :: ts, _, hx => by
    intro he
    have hlen : (s ++ "," ++ joinComma (t :: ts)).length = 0 := by
      rw [show s ++ "," ++ joinComma (t :: ts) = joinComma (s :: t :: ts) from rfl, he]
      decide
    rw [String.length_append, String.length_append] at hlen
    have h2 : ("," : String).length = 1 := by decide
    omega

theorem renderPair_ne_empty {key value : String} (hk : key ≠ "") (hv : value ≠ "") :
    renderPair key value ≠ "" := by
  unfold renderPair
  rw [if_pos ⟨hk, hv⟩]
  apply str_ne_empty
  rw [String.length_append, String.length_append]
  have := str_pos_of_ne hk
  omega

theorem replChar_of_not_mem {c : Char} {r : List Char} :
    ∀ {l : List Char}, c ∉ l → replChar c r l = l
  | [], _ => rfl
  | x :: xs, h => by
    have hx : ¬(x = c) := by rintro rfl; exact h (List.mem_cons_self _ _)
    have hxs : c ∉ xs := fun hm => h (List.mem_cons_of_mem _ hm)
    simp [replChar, hx, replChar_of_not_mem hxs]

/-! ### Map model facts -/

theorem hmGet_hmInsert_self {α : Type} (m : SMap α) (k : String) (v : α) :
    hmGet (hmInsert m k v) k = some v := by
  simp [hmGet, hmInsert, List.reverse_append]

theorem find?_filter_of_imp {α : Type} (p q : α → Bool)
    (h : ∀ x, q x = true → p x = true) :
    ∀ (l : List α), (l.filter p).find? q = l.find? q
  | [] => rfl
  | a :: t => by
    by_cases hq : q a = true
    · simp [List.filter_cons, h a hq, List.find?_cons, hq]
    · by_cases hp : p a = true
      · simp [List.filter_cons, hp, List.find?_cons, hq, find?_filter_of_imp p q h t]
      · simp [List.filter_cons, hp, List.find?_cons, hq, find?_filter_of_imp p q h t]

theorem hmGet_hmInsert_ne {α : Type} (m : SMap α) {k k' : String} (v : α)
    (h : k' ≠ k) :
    hmGet (hmInsert m k v) k' = hmGet m k' := by
  unfold hmGet hmInsert
  rw [List.reverse_append]
  have hk : ((k, v).1 == k') = false := by
    simp [BEq.beq]
    exact fun he => h he.symm
  rw [List.reverse_singleton, List.singleton_append,
    List.find?_cons_of_neg _ (by simp [hk])]
  rw [← List.filter_reverse]
  rw [find?_filter_of_imp _ _ ?_ m.reverse]
  intro x hx
  simp only [bne_iff_ne, ne_eq]
  intro hxk
  rw [eq_of_beq hx] at hxk
  exact h hxk

theorem mem_of_mem_dedupLast {α : Type} :
    ∀ {m : SMap α} {p : String × α}, p ∈ dedupLast m → p ∈ m
  | [], _, h => by simp [dedupLast] at h
  | q :: ps, p, h => by
    by_cases hc : (ps.any fun r => r.1 == q.1) = true
    · rw [dedupLast, if_pos hc] at h
      exact List.mem_cons_of_mem _ (mem_of_mem_dedupLast h)
    · rw [dedupLast, if_neg hc] at h
      rcases List.mem_cons.mp h with h | h
      · exact h ▸ List.mem_cons_self _ _
      · exact List.mem_cons_of_mem _ (mem_of_mem_dedupLast h)

theorem dedupLast_subset_cons {α : Type} (q : String × α) (ps : SMap α) :
    ∀ {p : String × α}, p ∈ dedupLast ps → p ∈ dedupLast (q :: ps) := by
  intro p h
  by_cases hc : (ps.any fun r => r.1 == q.1) = true
  · rw [dedupLast, if_pos hc]; exact h
  · rw [dedupLast, if_neg hc]; exact List.mem_cons_of_mem _ h

theorem dedupLast_ne_nil {α : Type} :
    ∀ {m : SMap α}, m ≠ [] → dedupLast m ≠ []
  | [], h => absurd rfl h
  | q :: ps, _ => by
    by_cases hc : (ps.any fun r => r.1 == q.1) = true
    · have hps : ps ≠ [] := by rintro rfl; simp at hc
      rw [dedupLast, if_pos hc]
      exact dedupLast_ne_nil hps
    · rw [dedupLast, if_neg hc]
      exact List.cons_ne_nil _ _

theorem mem_dedupLast_of_hmGet {α : Type} :
    ∀ {m : SMap α} {k : String} {v : α}, hmGet m k = some v → (k, v) ∈ dedupLast m
  | [], k, v, h => by simp [hmGet] at h
  | p :: ps, k, v, h => by
    unfold hmGet at h
    rw [List.reverse_cons, List.find?_append] at h
    rcases hf : List.find? (fun r => r.1 == k) ps.reverse with _ | r
    · rw [hf] at h
      simp only [Option.none_or] at h
      rcases hp : ((p.1 == k) : Bool) with _ | _
      · rw [List.find?_singleton, if_neg (by simp [hp])] at h
        simp at h
      · rw [List.find?_singleton, if_pos (by simp [hp])] at h
        have hv : p.2 = v := by simpa using h
        have hkeq : p.1 = k := eq_of_beq hp
        have hnone : (ps.any fun r => r.1 == p.1) = false := by
          rw [List.find?_eq_none] at hf
          simp only [List.any_eq_false]
          intro r hr
          rw [hkeq]
          exact fun hb => absurd hb (by simpa using hf r (List.mem_reverse.mpr hr))
        rw [dedupLast, if_neg (by simp [hnone])]
        have : p = (k, v) := Prod.ext hkeq hv
        exact this ▸ List.mem_cons_self _ _
    · rw [hf] at h
      simp only [Option.or_some] at h
      have hget : hmGet ps k = some v := by
        unfold hmGet
        rw [hf]
        exact h
      exact dedupLast_subset_cons _ _ (mem_dedupLast_of_hmGet hget)

theorem mem_toSortedMap_iff {α : Type} {m : SMap α} {p : String × α} :
    p ∈ toSortedMap m ↔ p ∈ dedupLast m := by
  unfold toSortedMap sortByKey
  exact List.mem_insertionSort _

theorem encode_fields_ne_empty_of_get {m : SMap Field} {k : String} {v : Field}
    (hget : hmGet m k = some v) (hk : encode_key k ≠ "") (hv : fieldValue v ≠ "") :
    encode_fields m ≠ "" := by
  have hmem : (k, v) ∈ toSortedMap m :=
    mem_toSortedMap_iff.mpr (mem_dedupLast_of_hmGet hget)
  have hrp : renderPair (encode_key k) (fieldValue v) ≠ "" := renderPair_ne_empty hk hv
  have hmm : renderPair (encode_key k) (fieldValue v) ∈
      (toSortedMap m).map fun pair => renderPair (encode_key pair.1) (fieldValue pair.2) :=
    List.mem_map.mpr ⟨(k, v), hmem, rfl⟩
  have hmf : renderPair (encode_key k) (fieldValue v) ∈
      ((toSortedMap m).map fun pair =>
        renderPair (encode_key pair.1) (fieldValue pair.2)).filter
      fun field_value => field_value != "" :=
    List.mem_filter.mpr ⟨hmm, by simpa using hrp⟩
  unfold encode_fields
  exact joinComma_ne_empty _ (List.ne_nil_of_mem hmf)
    fun x hx => by simpa using (List.mem_filter.mp hx).2

/-! ### Line suppression facts -/

theorem influx_line_protocol_eq_empty_iff (measurement metric_type : String)
    (tags : Option (SMap String)) (fields : Option (SMap Field)) (timestamp : Int) :
    influx_line_protocol measurement metric_type tags fields timestamp = "" ↔
      encode_fields (fields.getD []) = "" := by
  unfold influx_line_protocol
  by_cases h : encode_fields (fields.getD []) = ""
  · rw [if_pos h]
    exact ⟨fun _ => h, fun _ => rfl⟩
  · rw [if_neg h]
    constructor
    · intro he
      exfalso
      have hlen : 0 < (encode_key measurement ++ ("," ++ encode_tags
          (hmInsert (tags.getD []) "metric_type" metric_type))
          ++ (" " ++ encode_fields (fields.getD []))
          ++ (" " ++ toString timestamp)).length := by
        rw [String.length_append, String.length_append, String.length_append,
          String.length_append, String.length_append, String.length_append]
        have h1 : ("," : String).length = 1 := by decide
        omega
      exact str_ne_empty hlen he
    · intro he
      exact absurd he h

/-! ### Bridges between the `F` model and rational arithmetic -/

theorem cmpEq_fin_le {a b : ℚ} :
    ((F.fin a).cmpEq (F.fin b) ≠ Ordering.gt) ↔ a ≤ b := by
  have hp : (F.fin a).pcmp (F.fin b)
      = some (if a < b then .lt else if a = b then .eq else .gt) := rfl
  unfold F.cmpEq
  rw [hp]
  rcases lt_trichotomy a b with h | h | h
  · rw [if_pos h]
    simp [le_of_lt h]
  · rw [if_neg (by rw [h]; exact lt_irrefl b), if_pos h]
    simp [le_of_eq h]
  · rw [if_neg (not_lt.mpr (le_of_lt h)), if_neg (ne_of_gt h)]
    simp [not_le.mpr h]

theorem orderedInsert_map_fin (a : ℚ) (l : List ℚ) :
    List.orderedInsert (fun x y : F => x.cmpEq y ≠ Ordering.gt) (F.fin a) (l.map F.fin)
      = (List.orderedInsert (fun x y : ℚ => x ≤ y) a l).map F.fin := by
  induction l with
  | nil => rfl
  | cons b t ih =>
    simp only [List.map_cons, List.orderedInsert]
    by_cases h : a ≤ b
    · rw [if_pos (cmpEq_fin_le.mpr h), if_pos h, List.map_cons, List.map_cons]
    · rw [if_neg (fun hc => h (cmpEq_fin_le.mp hc)), if_neg h, List.map_cons, ih]

theorem sortSamples_map_fin (l : List ℚ) :
    sortSamples (l.map F.fin)
      = (List.insertionSort (fun x y : ℚ => x ≤ y) l).map F.fin := by
  induction l with
  | nil => rfl
  | cons a t ih =>
    unfold sortSamples at *
    rw [List.map_cons, List.insertionSort, List.insertionSort, ih,
      orderedInsert_map_fin]

theorem foldl_add_map_fin :
    ∀ (l : List ℚ) (a : ℚ), (l.map F.fin).foldl F.add (F.fin a) = F.fin (a + l.sum)
  | [], a => by simp
  | x :: t, a => by
    simp only [List.map_cons, List.foldl_cons]
    rw [show F.add (F.fin a) (F.fin x) = F.fin (a + x) from rfl,
      foldl_add_map_fin t (a + x), List.sum_cons]
    congr 1
    ring

theorem expandSamples_map {α β : Type} (f : α → β) :
    ∀ (values : List α) (counts : List Nat),
      expandSamples (values.map f) counts = (expandSamples values counts).map f
  | [], _ => rfl
  | _ :: _, [] => rfl
  | v :: vs, c :: cs => by
    unfold expandSamples
    rw [List.map_cons, List.zip_cons_cons, List.zip_cons_cons, List.flatMap_cons,
      List.flatMap_cons, List.map_append, List.map_replicate]
    congr 1
    exact expandSamples_map f vs cs

/-! ### The order-statistic index -/

theorem ratFloor_eq_floor (q : ℚ) : Rat.floor q = ⌊q⌋ :=
  (Rat.floor_def' q).trans Rat.floor_def.symm

theorem roundAZ_nonneg_eq {q : ℚ} (h : 0 ≤ q) : roundAZ q = ⌊q + 1/2⌋ := by
  unfold roundAZ
  rw [if_neg (not_lt.mpr h), ratFloor_eq_floor]

theorem sampleIdx_lt {q : ℚ} {n : Nat} (hq0 : 1/2 ≤ q) (hq1 : q ≤ 1) (hn : 2 ≤ n) :
    0 ≤ roundAZ (q * n - 1) ∧ sampleIdx q n < n := by
  have hn2 : (2 : ℚ) ≤ (n : ℚ) := by exact_mod_cast hn
  have hx0 : 0 ≤ q * n - 1 := by nlinarith
  have hr : roundAZ (q * n - 1) = ⌊q * n - 1 + 1/2⌋ := roundAZ_nonneg_eq hx0
  have h0 : 0 ≤ roundAZ (q * n - 1) := by
    rw [hr]
    refine Int.le_floor.mpr ?_
    push_cast
    linarith
  refine ⟨h0, ?_⟩
  have hlt : roundAZ (q * n - 1) < (n : Int) := by
    rw [hr]
    refine Int.floor_lt.mpr ?_
    push_cast
    nlinarith
  unfold sampleIdx
  omega

/-! ### Sorted lists of rationals -/

theorem sorted_headD_le {l : List ℚ} (hs : l.Sorted (fun x y : ℚ => x ≤ y))
    {x : ℚ} (hx : x ∈ l) (d : ℚ) : l.headD d ≤ x := by
  cases l with
  | nil => simp at hx
  | cons a t =>
    rw [List.headD_cons]
    rcases List.mem_cons.mp hx with rfl | hxt
    · exact le_refl x
    · exact (List.sorted_cons.mp hs).1 x hxt

theorem sorted_le_getLastD :
    ∀ {l : List ℚ}, l.Sorted (fun x y : ℚ => x ≤ y) → ∀ x ∈ l, ∀ d, x ≤ l.getLastD d
  | [], _, x, hx, _ => by simp at hx
  | a :: t, hs, x, hx, d => by
    rw [List.getLastD_cons]
    cases t with
    | nil =>
      rcases List.mem_cons.mp hx with rfl | h
      · simp [List.getLastD]
      · simp at h
    | cons b t2 =>
      rcases List.mem_cons.mp hx with rfl | hxt
      · have hxb : x ≤ b := (List.sorted_cons.mp hs).1 b (List.mem_cons_self _ _)
        exact le_trans hxb
          (sorted_le_getLastD (List.sorted_cons.mp hs).2 b (List.mem_cons_self _ _) x)
      · exact sorted_le_getLastD (List.sorted_cons.mp hs).2 x hxt a

theorem getLast?_eq_getLastD :
    ∀ (l : List ℚ) (d : ℚ), l ≠ [] → (l.map F.fin).getLast? = some (F.fin (l.getLastD d))
  | [], _, h => absurd rfl h
  | [a], d, _ => by simp
  | a :: b :: t, d, _ => by
    rw [List.map_cons, List.map_cons, List.getLast?_cons_cons, ← List.map_cons,
      List.getLastD_cons]
    exact getLast?_eq_getLastD (b :: t) a (List.cons_ne_nil _ _)

/-! ### Structure of `encode_distribution` -/

theorem encode_distribution_cons2 (values : List F) (counts : List Nat)
    (hlen : values.length = counts.length) (s0 s1 : F) (srest : List F)
    (hexp : expandSamples values counts = s0 :: s1 :: srest) :
    encode_distribution values counts =
      (do
        let mn ← (sortSamples (s0 :: s1 :: srest)).head?
        let mx ← (sortSamples (s0 :: s1 :: srest)).getLast?
        let p50 ← (sortSamples (s0 :: s1 :: srest))[sampleIdx (1/2)
          (s0 :: s1 :: srest).length]?
        let p95 ← (sortSamples (s0 :: s1 :: srest))[sampleIdx (19/20)
          (s0 :: s1 :: srest).length]?
        some [("min", .Float mn), ("max", .Float mx), ("median", .Float p50),
          ("avg", .Float (((sortSamples (s0 :: s1 :: srest)).foldl F.add
            (F.fin 0)).div (F.fin ((s0 :: s1 :: srest).length : ℚ)))),
          ("sum", .Float ((sortSamples (s0 :: s1 :: srest)).foldl F.add (F.fin 0))),
          ("count", .Float (.fin ((s0 :: s1 :: srest).length : ℚ))),
          ("quantile_0.95", .Float p95)]) := by
  unfold encode_distribution
  rw [if_neg (not_not_intro hlen), hexp]

theorem encode_distribution_single (values : List F) (counts : List Nat)
    (hlen : values.length = counts.length) (val : F)
    (hexp : expandSamples values counts = [val]) :
    encode_distribution values counts =
      some [("min", .Float val), ("max", .Float val), ("median", .Float val),
        ("avg", .Float val), ("sum", .Float val), ("count", .Float (.fin 1)),
        ("quantile_0.95", .Float val)] := by
  unfold encode_distribution
  rw [if_neg (not_not_intro hlen), hexp]

theorem distribution_stats_spec (values : List ℚ) (counts : List Nat)
    (hlen : values.length = counts.length)
    (h2 : 2 ≤ (expandSamples values counts).length) :
    encode_distribution (values.map F.fin) counts =
      some [("min", .Float (.fin ((List.insertionSort (fun x y : ℚ => x ≤ y)
          (expandSamples values counts)).headD 0))),
        ("max", .Float (.fin ((List.insertionSort (fun x y : ℚ => x ≤ y)
          (expandSamples values counts)).getLastD 0))),
        ("median", .Float (.fin ((List.insertionSort (fun x y : ℚ => x ≤ y)
          (expandSamples values counts)).getD
          (sampleIdx (1/2) (expandSamples values counts).length) 0))),
        ("avg", .Float (.fin ((expandSamples values counts).sum
          / ((expandSamples values counts).length : ℚ)))),
        ("sum", .Float (.fin (expandSamples values counts).sum)),
        ("count", .Float (.fin ((expandSamples values counts).length : ℚ))),
        ("quantile_0.95", .Float (.fin ((List.insertionSort (fun x y : ℚ => x ≤ y)
          (expandSamples values counts)).getD
          (sampleIdx (19/20) (expandSamples values counts).length) 0)))] := by
  have hlenF : (values.map F.fin).length = counts.length := by
    rw [List.length_map]; exact hlen
  obtain ⟨x, y, rest, hexp⟩ :
      ∃ x y rest, expandSamples values counts = x :: y :: rest := by
    rcases hc : expandSamples values counts with _ | ⟨x, t⟩
    · rw [hc] at h2; simp at h2
    · rcases ht : t with _ | ⟨y, rest⟩
      · rw [hc, ht] at h2; simp at h2
      · exact ⟨x, y, rest, rfl⟩
  have hexpF : expandSamples (values.map F.fin) counts
      = F.fin x :: F.fin y :: rest.map F.fin := by
    rw [expandSamples_map, hexp]
    rfl
  rw [encode_distribution_cons2 _ _ hlenF _ _ _ hexpF]
  have hcons : F.fin x :: F.fin y :: rest.map F.fin
      = (expandSamples values counts).map F.fin := by
    rw [hexp]; rfl
  rw [hcons, sortSamples_map_fin]
  have hlenQ : (List.insertionSort (fun a b : ℚ => a ≤ b)
      (expandSamples values counts)).length = (expandSamples values counts).length :=
    List.length_insertionSort _ _
  have hQne : List.insertionSort (fun a b : ℚ => a ≤ b)
      (expandSamples values counts) ≠ [] := by
    intro hnil
    rw [hnil] at hlenQ
    rw [hexp] at hlenQ
    simp at hlenQ
  -- head
  obtain ⟨q0, qt, hq⟩ := List.exists_cons_of_ne_nil hQne
  have hhead : ((List.insertionSort (fun a b : ℚ => a ≤ b)
      (expandSamples values counts)).map F.fin).head?
      = some (F.fin ((List.insertionSort (fun a b : ℚ => a ≤ b)
        (expandSamples values counts)).headD 0)) := by
    rw [hq]; rfl
  -- last
  have hlast := getLast?_eq_getLastD (List.insertionSort (fun a b : ℚ => a ≤ b)
    (expandSamples values counts)) 0 hQne
  -- indices
  have hn2 : 2 ≤ (expandSamples values counts).length := h2
  have hi50 : sampleIdx (1/2) (expandSamples values counts).length
      < (expandSamples values counts).length :=
    (sampleIdx_lt (by norm_num) (by norm_num) hn2).2
  have hi95 : sampleIdx (19/20) (expandSamples values counts).length
      < (expandSamples values counts).length :=
    (sampleIdx_lt (by norm_num) (by norm_num) hn2).2
  have hi50' : sampleIdx (1/2) (expandSamples values counts).length
      < (List.insertionSort (fun a b : ℚ => a ≤ b)
        (expandSamples values counts)).length := by rw [hlenQ]; exact hi50
  have hi95' : sampleIdx (19/20) (expandSamples values counts).length
      < (List.insertionSort (fun a b : ℚ => a ≤ b)
        (expandSamples values counts)).length := by rw [hlenQ]; exact hi95
  have h50 : ((List.insertionSort (fun a b : ℚ => a ≤ b)
      (expandSamples values counts)).map F.fin)[sampleIdx (1/2)
        (expandSamples values counts).length]?
      = some (F.fin ((List.insertionSort (fun a b : ℚ => a ≤ b)
        (expandSamples values counts)).getD
        (sampleIdx (1/2) (expandSamples values counts).length) 0)) := by
    rw [List.getElem?_map, List.getElem?_eq_getElem hi50',
      List.getD_eq_getElem?_getD, List.getElem?_eq_getElem hi50']
    rfl
  have h95 : ((List.insertionSort (fun a b : ℚ => a ≤ b)
      (expandSamples values counts)).map F.fin)[sampleIdx (19/20)
        (expandSamples values counts).length]?
      = some (F.fin ((List.insertionSort (fun a b : ℚ => a ≤ b)
        (expandSamples values counts)).getD
        (sampleIdx (19/20) (expandSamples values counts).length) 0)) := by
    rw [List.getElem?_map, List.getElem?_eq_getElem hi95',
      List.getD_eq_getElem?_getD, List.getElem?_eq_getElem hi95']
    rfl
  -- sum
  have hsum : ((List.insertionSort (fun a b : ℚ => a ≤ b)
      (expandSamples values counts)).map F.fin).foldl F.add (F.fin 0)
      = F.fin (expandSamples values counts).sum := by
    rw [foldl_add_map_fin, zero_add,
      (List.perm_insertionSort (fun a b : ℚ => a ≤ b) (expandSamples values counts)).sum_eq]
  -- length of the mapped list
  have hlenmap : ((expandSamples values counts).map F.fin).length
      = (expandSamples values counts).length := List.length_map _ _
  rw [hlenmap, hhead, hlast, h50, h95, hsum]
  have hdiv : (F.fin (expandSamples values counts).sum).div
      (F.fin ((expandSamples values counts).length : ℚ))
      = F.fin ((expandSamples values counts).sum
        / ((expandSamples values counts).length : ℚ)) := by
    have hd : (F.fin (expandSamples values counts).sum).div
        (F.fin ((expandSamples values counts).length : ℚ))
        = if ((expandSamples values counts).length : ℚ) = 0 then F.nan
          else F.fin ((expandSamples values counts).sum
            / ((expandSamples values counts).length : ℚ)) := rfl
    rw [hd, if_neg (Nat.cast_ne_zero.mpr (by omega))]
  rw [show ∀ (a b c d : F),
      (do
        let mn ← some a
        let mx ← some b
        let p50 ← some c
        let p95 ← some d
        some [("min", Field.Float mn), ("max", Field.Float mx),
          ("median", Field.Float p50),
          ("avg", Field.Float ((F.fin (expandSamples values counts).sum).div
            (F.fin ((expandSamples values counts).length : ℚ)))),
          ("sum", Field.Float (F.fin (expandSamples values counts).sum)),
          ("count", Field.Float (F.fin ((expandSamples values counts).length : ℚ))),
          ("quantile_0.95", Field.Float p95)])
      = some [("min", Field.Float a), ("max", Field.Float b),
          ("median", Field.Float c),
          ("avg", Field.Float ((F.fin (expandSamples values counts).sum).div
            (F.fin ((expandSamples values counts).length : ℚ)))),
          ("sum", Field.Float (F.fin (expandSamples values counts).sum)),
          ("count", Field.Float (F.fin ((expandSamples values counts).length : ℚ))),
          ("quantile_0.95", Field.Float d)] from fun a b c d => rfl]
  rw [hdiv]

theorem encode_distribution_isSome (values : List F) (counts : List Nat)
    (hlen : values.length = counts.length)
    (hne : expandSamples values counts ≠ []) :
    (encode_distribution values counts).isSome = true := by
  rcases hc : expandSamples values counts with _ | ⟨s0, t⟩
  · exact absurd hc hne
  · rcases ht : t with _ | ⟨s1, srest⟩
    · rw [encode_distribution_single values counts hlen s0 (by rw [hc, ht])]
      rfl
    · have hexp : expandSamples values counts = s0 :: s1 :: srest := by rw [hc, ht]
      rw [encode_distribution_cons2 values counts hlen s0 s1 srest hexp]
      have hlen2 : 2 ≤ (s0 :: s1 :: srest).length := by simp
      have hlensort : (sortSamples (s0 :: s1 :: srest)).length
          = (s0 :: s1 :: srest).length := List.length_insertionSort _ _
      have hsne : sortSamples (s0 :: s1 :: srest) ≠ [] := by
        intro h
        rw [h] at hlensort
        simp at hlensort
      obtain ⟨m0, mt, hm⟩ := List.exists_cons_of_ne_nil hsne
      rw [hm]
      have hlenm : (m0 :: mt).length = (s0 :: s1 :: srest).length := by
        rw [← hm]
        exact hlensort
      have hi50 : sampleIdx (1/2) (s0 :: s1 :: srest).length < (m0 :: mt).length := by
        rw [hlenm]
        exact (sampleIdx_lt (by norm_num) (by norm_num) hlen2).2
      have hi95 : sampleIdx (19/20) (s0 :: s1 :: srest).length < (m0 :: mt).length := by
        rw [hlenm]
        exact (sampleIdx_lt (by norm_num) (by norm_num) hlen2).2
      rw [List.getElem?_eq_getElem hi50, List.getElem?_eq_getElem hi95,
        List.getLast?_eq_getLast _ (List.cons_ne_nil _ _)]
      rfl

theorem encode_distribution_none_iff (values : List F) (counts : List Nat) :
    encode_distribution values counts = none ↔
      (values.length ≠ counts.length ∨ expandSamples values counts = []) := by
  constructor
  · intro h
    by_cases hlen : values.length = counts.length
    · by_cases hne : expandSamples values counts = []
      · exact Or.inr hne
      · exfalso
        have := encode_distribution_isSome values counts hlen hne
        rw [h] at this
        simp at this
    · exact Or.inl hlen
  · intro h
    rcases h with h | h
    · unfold encode_distribution
      rw [if_pos h]
    · by_cases hlen : values.length = counts.length
      · unfold encode_distribution
        rw [if_neg (not_not_intro hlen), h]
      · unfold encode_distribution
        rw [if_pos hlen]

/-! ### Event-level facts -/

theorem encode_events_singleton (e : Metric) (ns : String) (now : Int) :
    encode_events [e] ns now =
      if event_line ns now e = "" then [] else [event_line ns now e] := by
  by_cases h : event_line ns now e = ""
  · simp [encode_events, h]
  · simp [encode_events, h]

theorem mem_encode_events_ne (events : List Metric) (ns : String) (now : Int) :
    ∀ l ∈ encode_events events ns now, l ≠ "" := by
  intro l hl
  unfold encode_events at hl
  have := List.mem_filter.mp hl
  simpa using this.2

theorem zip_take_min {α β : Type} : ∀ (l : List α) (r : List β),
    l.zip r = (l.take r.length).zip (r.take l.length)
  | [], _ => by simp
  | _ :: _, [] => by simp
  | a :: l, b :: r => by
    rw [List.zip_cons_cons, List.length_cons, List.length_cons,
      List.take_succ_cons, List.take_succ_cons, List.zip_cons_cons]
    congr 1
    exact zip_take_min l r

theorem hmGet_histogramFields_count (buckets : List F) (counts : List Nat)
    (count : Nat) (sum : F) :
    hmGet (histogramFields buckets counts count sum) "count"
      = some (Field.UnsignedInt count) := by
  unfold histogramFields
  rw [hmGet_hmInsert_ne _ _ (by decide), hmGet_hmInsert_self]

theorem hmGet_histogramFields_sum (buckets : List F) (counts : List Nat)
    (count : Nat) (sum : F) :
    hmGet (histogramFields buckets counts count sum) "sum"
      = some (Field.Float sum) := by
  unfold histogramFields
  rw [hmGet_hmInsert_self]

theorem hmGet_summaryFields_count (quantiles : List F) (values : List F)
    (count : Nat) (sum : F) :
    hmGet (summaryFields quantiles values count sum) "count"
      = some (Field.UnsignedInt count) := by
  unfold summaryFields
  rw [hmGet_hmInsert_ne _ _ (by decide), hmGet_hmInsert_self]

theorem hmGet_summaryFields_sum (quantiles : List F) (values : List F)
    (count : Nat) (sum : F) :
    hmGet (summaryFields quantiles values count sum) "sum"
      = some (Field.Float sum) := by
  unfold summaryFields
  rw [hmGet_hmInsert_self]

theorem fieldValue_unsignedInt_ne (u : Nat) : fieldValue (Field.UnsignedInt u) ≠ "" := by
  apply str_ne_empty
  have : fieldValue (Field.UnsignedInt u) = toString u ++ "i" := rfl
  rw [this, String.length_append]
  have hi : ("i" : String).length = 1 := by decide
  omega

theorem string_mk_toList (s : String) : String.mk s.toList = s := by
  obtain ⟨d⟩ := s
  rfl

theorem encode_key_of_safe {s : String}
    (h : ∀ c ∈ s.toList, c ≠ '\\' ∧ c ≠ ',' ∧ c ≠ ' ' ∧ c ≠ '=') :
    encode_key s = s := by
  unfold encode_key
  rw [replChar_of_not_mem (fun hm => (h _ hm).1 rfl),
    replChar_of_not_mem (fun hm => (h _ hm).2.1 rfl),
    replChar_of_not_mem (fun hm => (h _ hm).2.2.1 rfl),
    replChar_of_not_mem (fun hm => (h _ hm).2.2.2 rfl)]
  exact string_mk_toList s

theorem escapeFieldString_of_safe {s : String}
    (h : ∀ c ∈ s.toList, c ≠ '\\' ∧ c ≠ '"') : escapeFieldString s = s := by
  unfold escapeFieldString
  rw [replChar_of_not_mem (fun hm => (h _ hm).1 rfl),
    replChar_of_not_mem (fun hm => (h _ hm).2 rfl)]
  exact string_mk_toList s

theorem decExpAux_den_one : ∀ (fuel : Nat) {q : ℚ}, q.den = 1 → decExpAux fuel q = 0
  | 0, _, _ => rfl
  | _ + 1, _, h => by simp [decExpAux, h]

theorem fmtRat_natCast (n : Nat) : fmtRat (n : ℚ) = toString n := by
  have hk : decExpAux 1200 ((n : ℚ)) = 0 := decExpAux_den_one 1200 (Rat.den_natCast n)
  unfold fmtRat
  rw [if_neg (not_lt.mpr (Nat.cast_nonneg n))]
  simp [fmtNonnegRat, hk]

/-! ### Claims -/

/-- C5: `encode_key` (the spec's `escape_key`) performs the four replacements
backslash, comma, space, equals in this exact order — observable on inputs
whose escaping introduces backslashes that the later substitutions must not
re-escape, such as the two-character string backslash-comma — and every
string containing none of the four characters is returned unchanged. -/
theorem claim_C5_escape_key :
    (∀ s : String, (∀ c ∈ s.toList, c ≠ '\\' ∧ c ≠ ',' ∧ c ≠ ' ' ∧ c ≠ '=') →
      encode_key s = s)
    ∧ encode_key "\\," = "\\\\\\,"
    ∧ encode_key "measurement name" = "measurement\\ name"
    ∧ encode_key "measurement=name" = "measurement\\=name"
    ∧ encode_key "measurement,name" = "measurement\\,name" := by
  refine ⟨?_, by decide, by decide, by decide, by decide⟩
  intro s h
  exact encode_key_of_safe h

/-- C5 witness: a concrete safe string escapes to itself. -/
theorem claim_C5_escape_key_witness : encode_key "total" = "total" :=
  claim_C5_escape_key.1 "total" (by decide)

/-- C10: for every expanded sample count n ≥ 2 the order-statistic indices
round(0.50·n − 1) and round(0.95·n − 1), rounded half away from zero and cast
to an unsigned index, lie within [0, n − 1], so the median and p95 accesses
of `encode_distribution` are in bounds. -/
theorem claim_C10_index_bounds :
    ∀ n : Nat, 2 ≤ n →
      0 ≤ roundAZ (1/2 * (n : ℚ) - 1) ∧ 0 ≤ roundAZ (19/20 * (n : ℚ) - 1)
      ∧ sampleIdx (1/2) n < n ∧ sampleIdx (19/20) n < n := by
  intro n hn
  obtain ⟨h1, h2⟩ := sampleIdx_lt (q := 1/2) (by norm_num) (by norm_num) hn
  obtain ⟨h3, h4⟩ := sampleIdx_lt (q := 19/20) (by norm_num) (by norm_num) hn
  exact ⟨h1, h3, h2, h4⟩

/-- C10 witness: the bounds at n = 8. -/
theorem claim_C10_index_bounds_witness :
    0 ≤ roundAZ (1/2 * ((8 : Nat) : ℚ) - 1) ∧ 0 ≤ roundAZ (19/20 * ((8 : Nat) : ℚ) - 1)
    ∧ sampleIdx (1/2) 8 < 8 ∧ sampleIdx (19/20) 8 < 8 :=
  claim_C10_index_bounds 8 (by decide)

/-- C9: the distribution summarizer is total also on NaN-containing input:
the sort comparator maps every incomparable pair to `Equal`, and every input
passing the length and nonempty-expansion checks produces `some` fields (the
modelled panics never fire). -/
theorem claim_C9_nan_total :
    (∀ a b : F, F.pcmp a b = none → F.cmpEq a b = Ordering.eq)
    ∧ ∀ (values : List F) (counts : List Nat),
        values.length = counts.length → expandSamples values counts ≠ [] →
        (encode_distribution values counts).isSome = true := by
  constructor
  · intro a b h
    unfold F.cmpEq
    rw [h]
    rfl
  · exact encode_distribution_isSome

/-- C9 witness: an input containing NaN still yields `some` fields. -/
theorem claim_C9_nan_total_witness :
    (encode_distribution [F.nan, F.fin 1] [1, 1]).isSome = true :=
  claim_C9_nan_total.2 [F.nan, F.fin 1] [1, 1] (by decide)
    (by with_unfolding_all decide)

/-- C3: the summarizer returns `none` exactly when the lengths differ or the
expansion is empty; every such sample produces zero output lines; every other
input yields `some` fields (by the iff). -/
theorem claim_C3_none_iff :
    (∀ (values : List F) (counts : List Nat),
      encode_distribution values counts = none ↔
        (values.length ≠ counts.length ∨ expandSamples values counts = []))
    ∧ ∀ (name : String) (tsv : Option Int) (tags : Option (SMap String))
        (kind : MetricKind) (ns : String) (now : Int)
        (values : List F) (counts : List Nat),
        encode_distribution values counts = none →
        encode_events [⟨name, tsv, tags, kind, .Distribution values counts⟩]
          ns now = [] := by
  refine ⟨encode_distribution_none_iff, ?_⟩
  intro name tsv tags kind ns now values counts hnone
  rw [encode_events_singleton]
  have hline : event_line ns now ⟨name, tsv, tags, kind,
      .Distribution values counts⟩ = "" := by
    have he : event_line ns now ⟨name, tsv, tags, kind, .Distribution values counts⟩
        = influx_line_protocol (encode_namespace ns name) "distribution" tags
          (encode_distribution values counts) (encode_timestamp now tsv) := rfl
    rw [he, hnone]
    exact (influx_line_protocol_eq_empty_iff _ _ _ _ _).mpr rfl
  rw [if_pos hline]

/-- C3 witness: a mismatched-length distribution sample yields no line. -/
theorem claim_C3_none_iff_witness :
    encode_events [⟨"requests", some 1542182950000000011, none, .Incremental,
      .Distribution [F.fin 1] [1, 2, 3]⟩] "ns" 0 = [] :=
  claim_C3_none_iff.2 "requests" (some 1542182950000000011) none .Incremental
    "ns" 0 [F.fin 1] [1, 2, 3] (by with_unfolding_all decide)

/-- C8: a rendered line is the empty string exactly when the encoded field
string is empty; `encode_events` never emits an empty line; and a single
sample yields exactly one line when its rendered line is nonempty, zero
otherwise. -/
theorem claim_C8_empty_suppression :
    (∀ (measurement metric_type : String) (tags : Option (SMap String))
      (fields : Option (SMap Field)) (ts : Int),
      influx_line_protocol measurement metric_type tags fields ts = "" ↔
        encode_fields (fields.getD []) = "")
    ∧ (∀ (events : List Metric) (ns : String) (now : Int),
        ∀ l ∈ encode_events events ns now, l ≠ "")
    ∧ ∀ (e : Metric) (ns : String) (now : Int),
        encode_events [e] ns now =
          if event_line ns now e = "" then [] else [event_line ns now e] :=
  ⟨influx_line_protocol_eq_empty_iff, mem_encode_events_ne, encode_events_singleton⟩

/-- C8 witness: with no fields the rendered line is the empty string. -/
theorem claim_C8_empty_suppression_witness :
    influx_line_protocol "m" "counter" none none 0 = "" :=
  (claim_C8_empty_suppression.1 "m" "counter" none none 0).mpr rfl

/-- C6: `metric_type` is inserted into the tag set overwriting any existing
tag of that key; the rendered tag block sorts keys lexicographically, escapes
key and value independently, drops pairs with an empty escaped side, and
carries a leading comma; the claim's concrete tag set renders exactly as
stated. -/
theorem claim_C6_tag_rendering :
    (∀ (tags : SMap String) (mt : String),
      hmGet (hmInsert tags "metric_type" mt) "metric_type" = some mt)
    ∧ (∀ (measurement mt : String) (tags : Option (SMap String))
        (fields : Option (SMap Field)) (ts : Int),
        influx_line_protocol measurement mt tags fields ts = "" ∨
        ∃ rest, influx_line_protocol measurement mt tags fields ts =
          encode_key measurement ++
            ("," ++ encode_tags (hmInsert (tags.getD []) "metric_type" mt)) ++ rest)
    ∧ encode_tags [("normal_tag", "value"), ("true_tag", "true"), ("empty_tag", "")]
        = "normal_tag=value,true_tag=true"
    ∧ encode_tags (hmInsert [("metric_type", "evil")] "metric_type" "counter")
        = "metric_type=counter"
    ∧ encode_tags [("tag", "val=ue"), ("name escape", "true"),
        ("value_escape", "value escape"), ("a_first_place", "10")]
        = "a_first_place=10,name\\ escape=true,tag=val\\=ue,value_escape=value\\ escape"
    ∧ encode_events [⟨"total", some 1542182950000000011, none, .Incremental,
        .Counter (.fin (3/2))⟩] "ns" 0
        = ["ns.total,metric_type=counter value=1.5 1542182950000000011"] := by
  refine ⟨?_, ?_, by decide, by decide, by decide, by with_unfolding_all decide⟩
  · exact fun tags mt => hmGet_hmInsert_self tags "metric_type" mt
  · intro measurement mt tags fields ts
    by_cases h : encode_fields (fields.getD []) = ""
    · exact Or.inl ((influx_line_protocol_eq_empty_iff _ _ _ _ _).mpr h)
    · refine Or.inr ⟨(" " ++ encode_fields (fields.getD [])) ++ (" " ++ toString ts), ?_⟩
      unfold influx_line_protocol
      rw [if_neg h]
      exact String.append_assoc _ _ _

/-- C4: a histogram or summary length mismatch is not guarded: the fields come
from index-zipping the two sequences up to the shorter length (truncating the
longer one changes nothing), together with the `count` and `sum` fields, and
the encoder still emits exactly one nonempty line for the sample. -/
theorem claim_C4_zip_unguarded :
    (∀ (buckets : List F) (counts : List Nat) (count : Nat) (sum : F),
      histogramFields buckets counts count sum
        = histogramFields (buckets.take counts.length)
            (counts.take buckets.length) count sum
      ∧ hmGet (histogramFields buckets counts count sum) "count"
          = some (.UnsignedInt count)
      ∧ hmGet (histogramFields buckets counts count sum) "sum"
          = some (.Float sum))
    ∧ (∀ (quantiles values : List F) (count : Nat) (sum : F),
      summaryFields quantiles values count sum
        = summaryFields (quantiles.take values.length)
            (values.take quantiles.length) count sum
      ∧ hmGet (summaryFields quantiles values count sum) "count"
          = some (.UnsignedInt count)
      ∧ hmGet (summaryFields quantiles values count sum) "sum"
          = some (.Float sum))
    ∧ (∀ (name : String) (tsv : Option Int) (tags : Option (SMap String))
        (kind : MetricKind) (ns : String) (now : Int) (buckets : List F)
        (counts : List Nat) (count : Nat) (sum : F),
        encode_events [⟨name, tsv, tags, kind,
            .AggregatedHistogram buckets counts count sum⟩] ns now
          = [event_line ns now ⟨name, tsv, tags, kind,
              .AggregatedHistogram buckets counts count sum⟩]
        ∧ event_line ns now ⟨name, tsv, tags, kind,
            .AggregatedHistogram buckets counts count sum⟩ ≠ "")
    ∧ ∀ (name : String) (tsv : Option Int) (tags : Option (SMap String))
        (kind : MetricKind) (ns : String) (now : Int) (quantiles values : List F)
        (count : Nat) (sum : F),
        encode_events [⟨name, tsv, tags, kind,
            .AggregatedSummary quantiles values count sum⟩] ns now
          = [event_line ns now ⟨name, tsv, tags, kind,
              .AggregatedSummary quantiles values count sum⟩]
        ∧ event_line ns now ⟨name, tsv, tags, kind,
            .AggregatedSummary quantiles values count sum⟩ ≠ "" := by
  refine ⟨?_, ?_, ?_, ?_⟩
  · intro buckets counts count sum
    refine ⟨?_, hmGet_histogramFields_count _ _ _ _, hmGet_histogramFields_sum _ _ _ _⟩
    unfold histogramFields
    rw [zip_take_min buckets counts]
  · intro quantiles values count sum
    refine ⟨?_, hmGet_summaryFields_count _ _ _ _, hmGet_summaryFields_sum _ _ _ _⟩
    unfold summaryFields
    rw [zip_take_min quantiles values]
  · intro name tsv tags kind ns now buckets counts count sum
    have henc : encode_fields (histogramFields buckets counts count sum) ≠ "" :=
      encode_fields_ne_empty_of_get (hmGet_histogramFields_count _ _ _ _)
        (by decide) (fieldValue_unsignedInt_ne count)
    have hline : event_line ns now ⟨name, tsv, tags, kind,
        .AggregatedHistogram buckets counts count sum⟩ ≠ "" := by
      intro he
      exact henc ((influx_line_protocol_eq_empty_iff (encode_namespace ns name)
        "histogram" tags (some (histogramFields buckets counts count sum))
        (encode_timestamp now tsv)).mp he)
    rw [encode_events_singleton, if_neg hline]
    exact ⟨rfl, hline⟩
  · intro name tsv tags kind ns now quantiles values count sum
    have henc : encode_fields (summaryFields quantiles values count sum) ≠ "" :=
      encode_fields_ne_empty_of_get (hmGet_summaryFields_count _ _ _ _)
        (by decide) (fieldValue_unsignedInt_ne count)
    have hline : event_line ns now ⟨name, tsv, tags, kind,
        .AggregatedSummary quantiles values count sum⟩ ≠ "" := by
      intro he
      exact henc ((influx_line_protocol_eq_empty_iff (encode_namespace ns name)
        "summary" tags (some (summaryFields quantiles values count sum))
        (encode_timestamp now tsv)).mp he)
    rw [encode_events_singleton, if_neg hline]
    exact ⟨rfl, hline⟩

/-- C7 counterexample: the source sorts field keys by the RAW key before
escaping; on the keys `a b` and `a!b` (space sorts before `!`, but the
escaped `a\ b` sorts after `a!b`) the output differs from a sort performed
after escaping, so the claim's ordering is false of the code. -/
theorem claim_C7_counterexample :
    encode_fields [("a b", .Float (.fin 1)), ("a!b", .Float (.fin 2))]
      = "a\\ b=1,a!b=2"
    ∧ encode_fields_escapeSorted [("a b", .Float (.fin 1)), ("a!b", .Float (.fin 2))]
      = "a!b=2,a\\ b=1"
    ∧ encode_fields [("a b", .Float (.fin 1)), ("a!b", .Float (.fin 2))]
      ≠ encode_fields_escapeSorted [("a b", .Float (.fin 1)), ("a!b", .Float (.fin 2))] :=
  ⟨by with_unfolding_all decide, by with_unfolding_all decide,
    by with_unfolding_all decide⟩

/-- C7 (amended): field values render by kind — `String` wrapped in double
quotes with backslash escaped before double quote, `Float` in the default
shortest decimal form (integral floats such as 6.0 render as `6`, with no
`i` suffix), `UnsignedInt` as decimal digits followed by a literal `i` — and
the field keys are sorted lexicographically by the raw key, before escaping. -/
theorem claim_C7_field_rendering :
    (∀ s : String, (∀ c ∈ s.toList, c ≠ '\\' ∧ c ≠ '"') →
      fieldValue (.String s) = "\"" ++ s ++ "\"")
    ∧ fieldValue (.String "string\\val\"ue") = "\"string\\\\val\\\"ue\""
    ∧ (∀ n : Nat, fieldValue (.Float (.fin (n : ℚ))) = toString n)
    ∧ fieldValue (.Float (.fin (3/2))) = "1.5"
    ∧ fieldValue (.Float (.fin 6)) = "6"
    ∧ (∀ u : Nat, fieldValue (.UnsignedInt u) = toString u ++ "i")
    ∧ encode_fields [("field_string", .String "string value"),
        ("field_string_escape", .String "string\\val\"ue"),
        ("field_float", .Float (.fin (12345/100))),
        ("escape key", .Float (.fin 10))]
      = "escape\\ key=10,field_float=123.45,field_string=\"string value\",field_string_escape=\"string\\\\val\\\"ue\"" := by
  refine ⟨?_, by decide, ?_, by with_unfolding_all decide,
    by with_unfolding_all decide, fun u => rfl, by with_unfolding_all decide⟩
  · intro s h
    have he : fieldValue (.String s) = "\"" ++ escapeFieldString s ++ "\"" := rfl
    rw [he, escapeFieldString_of_safe h]
  · intro n
    exact fmtRat_natCast n

/-- C7 witness: a safe string value renders as itself in quotes. -/
theorem claim_C7_field_rendering_witness :
    fieldValue (.String "string value") = "\"string value\"" :=
  claim_C7_field_rendering.1 "string value" (by decide)

/-- C2 counterexample: at the claim's input — values [1.0], weights [3] — the
expansion has three samples, so the summarizer reports count = 3 and
sum = 3, not count = 1 and sum = 1. -/
theorem claim_C2_counterexample :
    (encode_distribution [F.fin 1] [3]).bind (fun m => hmGet m "count")
      = some (.Float (.fin 3))
    ∧ (encode_distribution [F.fin 1] [3]).bind (fun m => hmGet m "sum")
      = some (.Float (.fin 3))
    ∧ Field.Float (F.fin 3) ≠ Field.Float (F.fin 1) :=
  ⟨by with_unfolding_all decide, by with_unfolding_all decide,
    by with_unfolding_all decide⟩

/-- C2 (amended): whenever the expansion yields exactly one sample, all seven
outputs equal that single value except count = 1; in particular values [1.0]
with weights [1].  (The original weights [3] expand to three samples.) -/
theorem claim_C2_single_sample :
    encode_distribution [F.fin 1] [1]
      = some [("min", .Float (.fin 1)), ("max", .Float (.fin 1)),
        ("median", .Float (.fin 1)), ("avg", .Float (.fin 1)),
        ("sum", .Float (.fin 1)), ("count", .Float (.fin 1)),
        ("quantile_0.95", .Float (.fin 1))]
    ∧ ∀ (values : List F) (counts : List Nat) (val : F),
        values.length = counts.length →
        expandSamples values counts = [val] →
        encode_distribution values counts
          = some [("min", .Float val), ("max", .Float val), ("median", .Float val),
            ("avg", .Float val), ("sum", .Float val), ("count", .Float (.fin 1)),
            ("quantile_0.95", .Float val)] := by
  refine ⟨by with_unfolding_all decide, ?_⟩
  intro values counts val hlen hexp
  exact encode_distribution_single values counts hlen val hexp

/-- C2 witness: the single-sample case at values [1.0], weights [1]. -/
theorem claim_C2_single_sample_witness :
    encode_distribution [F.fin 1] [1]
      = some [("min", .Float (.fin 1)), ("max", .Float (.fin 1)),
        ("median", .Float (.fin 1)), ("avg", .Float (.fin 1)),
        ("sum", .Float (.fin 1)), ("count", .Float (.fin 1)),
        ("quantile_0.95", .Float (.fin 1))] :=
  claim_C2_single_sample.2 [F.fin 1] [1] (F.fin 1) (by decide)
    (by with_unfolding_all decide)

/-- C1: for every length-matched Distribution input whose expansion has
n ≥ 2 samples, the summarizer returns min = the smallest expanded sample,
max = the largest, median = the ascending-sorted sample at index
round(0.50·n − 1), p95 = the sorted sample at index round(0.95·n − 1)
(rounding half away from zero), sum = the sum of all expanded samples,
avg = sum / n, and count = n as a float-typed field; values [1,2,3] with
weights [3,3,2] yield avg = 1.875, count = 8, max = 3, median = 2, min = 1,
p95 = 3, sum = 15. -/
theorem claim_C1_distribution_stats :
    (encode_distribution [F.fin 1, F.fin 2, F.fin 3] [3, 3, 2]
      = some [("min", .Float (.fin 1)), ("max", .Float (.fin 3)),
        ("median", .Float (.fin 2)), ("avg", .Float (.fin (15/8))),
        ("sum", .Float (.fin 15)), ("count", .Float (.fin 8)),
        ("quantile_0.95", .Float (.fin 3))])
    ∧ ∀ (values : List ℚ) (counts : List Nat),
        values.length = counts.length →
        2 ≤ (expandSamples values counts).length →
        (encode_distribution (values.map F.fin) counts =
          some [("min", .Float (.fin ((List.insertionSort (fun x y : ℚ => x ≤ y)
              (expandSamples values counts)).headD 0))),
            ("max", .Float (.fin ((List.insertionSort (fun x y : ℚ => x ≤ y)
              (expandSamples values counts)).getLastD 0))),
            ("median", .Float (.fin ((List.insertionSort (fun x y : ℚ => x ≤ y)
              (expandSamples values counts)).getD
              (sampleIdx (1/2) (expandSamples values counts).length) 0))),
            ("avg", .Float (.fin ((expandSamples values counts).sum
              / ((expandSamples values counts).length : ℚ)))),
            ("sum", .Float (.fin (expandSamples values counts).sum)),
            ("count", .Float (.fin ((expandSamples values counts).length : ℚ))),
            ("quantile_0.95", .Float (.fin ((List.insertionSort (fun x y : ℚ => x ≤ y)
              (expandSamples values counts)).getD
              (sampleIdx (19/20) (expandSamples values counts).length) 0)))])
        ∧ List.Sorted (fun x y : ℚ => x ≤ y)
            (List.insertionSort (fun x y : ℚ => x ≤ y) (expandSamples values counts))
        ∧ List.Perm (List.insertionSort (fun x y : ℚ => x ≤ y)
            (expandSamples values counts)) (expandSamples values counts)
        ∧ (List.insertionSort (fun x y : ℚ => x ≤ y)
            (expandSamples values counts)).headD 0 ∈ expandSamples values counts
        ∧ (∀ x ∈ expandSamples values counts,
            (List.insertionSort (fun x y : ℚ => x ≤ y)
              (expandSamples values counts)).headD 0 ≤ x)
        ∧ (List.insertionSort (fun x y : ℚ => x ≤ y)
            (expandSamples values counts)).getLastD 0 ∈ expandSamples values counts
        ∧ ∀ x ∈ expandSamples values counts,
            x ≤ (List.insertionSort (fun x y : ℚ => x ≤ y)
              (expandSamples values counts)).getLastD 0 := by
  refine ⟨by with_unfolding_all decide, ?_⟩
  intro values counts hlen h2
  have hsorted : List.Sorted (fun x y : ℚ => x ≤ y)
      (List.insertionSort (fun x y : ℚ => x ≤ y) (expandSamples values counts)) :=
    List.sorted_insertionSort _ _
  have hperm : List.Perm (List.insertionSort (fun x y : ℚ => x ≤ y)
      (expandSamples values counts)) (expandSamples values counts) :=
    List.perm_insertionSort _ _
  have hQne : List.insertionSort (fun x y : ℚ => x ≤ y)
      (expandSamples values counts) ≠ [] := by
    intro hnil
    have hl := List.length_insertionSort (fun x y : ℚ => x ≤ y)
      (expandSamples values counts)
    rw [hnil] at hl
    simp only [List.length_nil] at hl
    omega
  obtain ⟨q0, qt, hq⟩ := List.exists_cons_of_ne_nil hQne
  have hheadmem : (List.insertionSort (fun x y : ℚ => x ≤ y)
      (expandSamples values counts)).headD 0 ∈ expandSamples values counts := by
    refine hperm.mem_iff.mp ?_
    rw [hq, List.headD_cons]
    exact List.mem_cons_self _ _
  have hlastmem : (List.insertionSort (fun x y : ℚ => x ≤ y)
      (expandSamples values counts)).getLastD 0 ∈ expandSamples values counts := by
    refine hperm.mem_iff.mp ?_
    rw [hq, List.getLastD_cons]
    exact List.getLastD_mem_cons _ _
  refine ⟨distribution_stats_spec values counts hlen h2, hsorted, hperm,
    hheadmem, ?_, hlastmem, ?_⟩
  · intro x hx
    exact sorted_headD_le hsorted (hperm.mem_iff.mpr hx) 0
  · intro x hx
    exact sorted_le_getLastD hsorted x (hperm.mem_iff.mpr hx) 0

/-- C1 witness: the summarizer output at values [1,2,3], weights [3,3,2],
through the general statement. -/
theorem claim_C1_distribution_stats_witness :
    encode_distribution ([(1 : ℚ), 2, 3].map F.fin) [3, 3, 2] =
      some [("min", .Float (.fin ((List.insertionSort (fun x y : ℚ => x ≤ y)
          (expandSamples [(1 : ℚ), 2, 3] [3, 3, 2])).headD 0))),
        ("max", .Float (.fin ((List.insertionSort (fun x y : ℚ => x ≤ y)
          (expandSamples [(1 : ℚ), 2, 3] [3, 3, 2])).getLastD 0))),
        ("median", .Float (.fin ((List.insertionSort (fun x y : ℚ => x ≤ y)
          (expandSamples [(1 : ℚ), 2, 3] [3, 3, 2])).getD
          (sampleIdx (1/2) (expandSamples [(1 : ℚ), 2, 3] [3, 3, 2]).length) 0))),
        ("avg", .Float (.fin ((expandSamples [(1 : ℚ), 2, 3] [3, 3, 2]).sum
          / ((expandSamples [(1 : ℚ), 2, 3] [3, 3, 2]).length : ℚ)))),
        ("sum", .Float (.fin (expandSamples [(1 : ℚ), 2, 3] [3, 3, 2]).sum)),
        ("count", .Float (.fin ((expandSamples [(1 : ℚ), 2, 3] [3, 3, 2]).length : ℚ))),
        ("quantile_0.95", .Float (.fin ((List.insertionSort (fun x y : ℚ => x ≤ y)
          (expandSamples [(1 : ℚ), 2, 3] [3, 3, 2])).getD
          (sampleIdx (19/20) (expandSamples [(1 : ℚ), 2, 3] [3, 3, 2]).length) 0)))] :=
  (claim_C1_distribution_stats.2 [(1 : ℚ), 2, 3] [3, 3, 2] (by decide)
    (by with_unfolding_all decide)).1

end InfluxMetrics
